import Mathlib

/-!
Verification of the plugin-getter core (`plugins.go`) of the packer
repository.  The Go source is shallowly embedded: every pure helper
becomes a Lean function, the stateful installer becomes a pure function
over an explicit environment that records the behaviour of the external
collaborators (Getters, Checksummers, the filesystem and the zip
library), and Go panics become an explicit `none` / `panicked` outcome.
-/

/-! ## Go string primitives used by the source -/

/-- Consume the exact sequence `pre` from the front of `s`; `none` when
`pre` is not an initial segment.  Helper for the exact-match trims. -/
def dropPre : List Char → List Char → Option (List Char)
  | [], s => some s
  | _ :: _, [] => none
  | p :: ps, c :: cs => if p = c then dropPre ps cs else none

/-- Model of Go `strings.TrimPrefix s pre`: the exact string `pre` is
removed from the front of `s` when present, otherwise `s` is returned. -/
def goTrimPre (s pre : String) : String :=
  match dropPre pre.data s.data with
  | some rest => ⟨rest⟩
  | none => s

/-- Model of Go `strings.TrimSuffix s suf`: the exact string `suf` is
removed from the end of `s` when present, otherwise `s` is returned. -/
def goTrimSuf (s suf : String) : String :=
  match dropPre suf.data.reverse s.data.reverse with
  | some rest => some rest |>.map List.reverse |>.map (⟨·⟩) |>.getD s
  | none => s

/-- Drop leading characters that belong to the cut set `cut`.  This is
the character-set semantics of Go `strings.TrimLeft`. -/
def dropWhileIn (cut : List Char) : List Char → List Char
  | [] => []
  | c :: cs => if cut.contains c then dropWhileIn cut cs else c :: cs

/-- Model of Go `strings.TrimLeft s cut` (cut-set trim, not an exact
match — exactly as the source calls it in `ChecksumFileEntry.init`). -/
def goTrimLeftCS (s cut : String) : String :=
  ⟨dropWhileIn cut.data s.data⟩

/-- Model of Go `strings.TrimRight s cut` (cut-set trim). -/
def goTrimRightCS (s cut : String) : String :=
  ⟨(dropWhileIn cut.data s.data.reverse).reverse⟩

/-- Split a character list at every occurrence of `sep`.  This is Go
`strings.Split s sep` for a one-character separator; the result is never
empty. -/
def splitOnChar (sep : Char) : List Char → List (List Char)
  | [] => [[]]
  | c :: cs =>
    if c = sep then [] :: splitOnChar sep cs
    else
      match splitOnChar sep cs with
      | b :: bs => (c :: b) :: bs
      | [] => [[c]]

/-- Locate the first occurrence of `sep`, returning the pieces before
and after it. -/
def splitFirst (sep : Char) : List Char → Option (List Char × List Char)
  | [] => none
  | c :: cs =>
    if c = sep then some ([], cs)
    else
      match splitFirst sep cs with
      | some (a, b) => some (c :: a, b)
      | none => none

/-- Model of Go `strings.SplitN s sep 2` for a one-character separator:
two pieces when `sep` occurs, otherwise the single piece `[s]`. -/
def splitN2 (sep : Char) (l : List Char) : List (List Char) :=
  match splitFirst sep l with
  | some (a, b) => [a, b]
  | none => [l]

/-- Model of Go `filepath.Base`: the last slash-separated component
(`"."` for the empty path). -/
def baseNameGo (s : String) : String :=
  let b : List Char := (s.data.reverse.takeWhile (fun c => c ≠ '/')).reverse
  if b = [] then "." else ⟨b⟩

/-- Characters of the extension of `s` (from the last dot of the last
component, dot included), reading the reversed character list. -/
def extRev : List Char → List Char
  | [] => []
  | c :: cs =>
    if c = '.' then [c]
    else if c = '/' then []
    else
      match extRev cs with
      | [] => []
      | e => c :: e

/-- Model of Go `filepath.Ext`: suffix of the last component starting at
its final dot, empty when there is no dot. -/
def filepathExtGo (s : String) : String :=
  ⟨(extRev s.data.reverse).reverse⟩

/-- Model of Go `filepath.Dir` restricted to the use in the source:
everything before the last slash (`"."` when there is no slash). -/
def dirNameGo (s : String) : String :=
  let d : List Char := s.data.reverse.dropWhile (fun c => c ≠ '/')
  match d with
  | [] => "."
  | _ :: rest => if rest = [] then "/" else ⟨rest.reverse⟩

/-- Model of Go `filepath.Join` on an already-split component list. -/
def joinPath (parts : List String) : String :=
  String.intercalate "/" parts

/-! ## Decimal numerals and Go `strconv.Atoi` -/

/-- The decimal digit character for a value below ten. -/
def decDigit (d : Nat) : Char := Char.ofNat (48 + d)

/-- Little-endian base-ten digits with explicit fuel, so that the
definition reduces by iota in the kernel. -/
def natDigitsRev (fuel : Nat) (n : Nat) : List Nat :=
  match fuel with
  | 0 => []
  | fuel + 1 => if n = 0 then [] else (n % 10) :: natDigitsRev fuel (n / 10)

/-- Canonical decimal numeral of a natural number, as characters. -/
def natStrData (n : Nat) : List Char :=
  if n = 0 then ['0'] else (natDigitsRev n n).reverse.map decDigit

/-- Canonical decimal numeral of a natural number, as a string. -/
def natStr (n : Nat) : String := ⟨natStrData n⟩

/-- Numeric value of a digit character, `none` for non-digits. -/
def digitVal (c : Char) : Option Nat :=
  if 48 ≤ c.toNat ∧ c.toNat ≤ 57 then some (c.toNat - 48) else none

/-- Accumulating decimal reader over a character list; fails on the
first non-digit character. -/
def readDigitsAux (acc : Nat) : List Char → Option Nat
  | [] => some acc
  | c :: cs =>
    match digitVal c with
    | some d => readDigitsAux (acc * 10 + d) cs
    | none => none

/-- Read a non-empty all-digit character list as a natural number. -/
def readDigits : List Char → Option Nat
  | [] => none
  | l => readDigitsAux 0 l

/-- Model of Go `strconv.Atoi`: optional sign followed by a non-empty
digit string (overflow is not modelled; the protocol minors in scope are
small). -/
def goAtoiData : List Char → Option Int
  | [] => none
  | c :: cs =>
    if c = '-' then (readDigits cs).map (fun n => -(n : Int))
    else if c = '+' then (readDigits cs).map (fun n => (n : Int))
    else (readDigits (c :: cs)).map (fun n => (n : Int))

/-- Model of Go `strconv.Atoi` on a string. -/
def goAtoi (s : String) : Option Int := goAtoiData s.data

/-! ## Lexicographic orders

Go compares strings byte-wise; for the valid UTF-8 in scope this is the
lexicographic order on the character sequences. -/

/-- Generic lexicographic strict order on lists over a linear order (a
proper initial segment is smaller). -/
def lexLt {A : Type} [LinearOrder A] : List A → List A → Bool
  | _, [] => false
  | [], _ :: _ => true
  | a :: as, b :: bs =>
    if a < b then true
    else if b < a then false
    else lexLt as bs

/-- Model of Go string `<`: byte-wise lexicographic comparison. -/
def strLt (a b : String) : Bool := lexLt a.data b.data

/-- Model of Go string `<=`. -/
def strLe (a b : String) : Bool := strLt a b || a.data == b.data

/-! ## Versions

Modelled from the spec: the version engine is the external
`github.com/hashicorp/go-version` library (spec §3 "Version", §2 C2),
whose source is not part of this repository.  A version is the list of
its dot-separated numeric segments, ordered lexicographically;
pre-release and build metadata forms are outside the claims in scope. -/

/-- A parsed semantic version: its dot-separated numeric segments. -/
abbrev Ver := List Nat

/-- Parse every dot-separated segment as a decimal number. -/
def parseSegs : List (List Char) → Option Ver
  | [] => some []
  | p :: ps =>
    match readDigits p with
    | none => none
    | some n => (parseSegs ps).map (fun vs => n :: vs)

/-- Modelled from the spec: `version.NewVersion` of the external version
engine — an optional leading `v` followed by dot-separated numeric
segments; anything else fails to parse. -/
def parseVersion (s : String) : Option Ver :=
  parseSegs (splitOnChar '.' (goTrimPre s "v").data)

/-- Modelled from the spec: `Version.String()` of the external version
engine — the dot-separated decimal rendering of the segments. -/
def vString (v : Ver) : String :=
  String.intercalate "." (v.map natStr)

/-- Strict order on version segment lists: lexicographic comparison of
the numeric segments (the ordering of the external version engine on the
forms in scope). -/
def vlt (a b : Ver) : Bool := lexLt a b

/-- Lexicographic order, reflexive version. -/
def vle (a b : Ver) : Bool := vlt a b || a == b

/-- Insert a version into a descending-sorted list, keeping it
descending. -/
def insertDesc (v : Ver) : List Ver → List Ver
  | [] => [v]
  | w :: ws => if vle w v then v :: w :: ws else w :: insertDesc v ws

/-- Model of `sort.Sort(sort.Reverse(versions))`: the collected versions
in descending order. -/
def sortDesc (l : List Ver) : List Ver := l.foldr insertDesc []

/-! ## Protocol compatibility (`CheckProtocolVersion`) -/

/-- The distinct error outcomes of `CheckProtocolVersion`. -/
inductive ProtErr where
  | invalidRemote
  | majorMismatch
  | minorParse
  | hostMinorParse
  | minorTooNew
deriving DecidableEq

/-- Model of `BinaryInstallationOptions.CheckProtocolVersion`: trim a
leading `x`, split on dots, require two parts, compare the major parts
as strings, accept an identical minor string, otherwise compare the
minors as integers (`strconv.Atoi` errors are propagated). -/
def checkProtocolVersion (apiMajor apiMinor remoteProt : String) : Except ProtErr Unit :=
  match splitOnChar '.' (goTrimPre remoteProt "x").data with
  | vMajor :: vMinor :: _ =>
    if (⟨vMajor⟩ : String) ≠ apiMajor then .error .majorMismatch
    else if (⟨vMinor⟩ : String) = apiMinor then .ok ()
    else
      match goAtoi ⟨vMinor⟩ with
      | none => .error .minorParse
      | some vMinori =>
        match goAtoi apiMinor with
        | none => .error .hostMinorParse
        | some apiMinori =>
          if vMinori > apiMinori then .error .minorTooNew else .ok ()
  | _ => .error .invalidRemote

/-! ## Data model -/

/-- Model of the `Installation` struct. -/
structure Installation where
  binaryPath : String
  version : String
deriving DecidableEq

/-- Model of a `Release` entry of the release index. -/
structure Release where
  version : String
deriving DecidableEq

/-- Model of one line of a checksum manifest (the two JSON fields of
`ChecksumFileEntry`; the derived fields live in `EntryFields`). -/
structure RawEntry where
  filename : String
  checksum : String
deriving DecidableEq

/-- The derived fields `ChecksumFileEntry.init` populates. -/
structure EntryFields where
  ext : String
  binVersion : String
  protVersion : String
  goos : String
  goarch : String
deriving DecidableEq

/-- Modelled from the spec (§3 "Checksummer", §4.3): the checksummer
implementation lives outside `src/`; it is an abstract capability record
exactly as the spec describes it.  `checksum expected bytes` is the
verification `Checksum(expected, stream)` (true means match),
`checksumFile` re-reads a file and compares, `getChecksumOfFile` looks
for a sidecar digest, `sumBytes` is `Sum` and `parseChecksum` reads a
digest from text. -/
structure GoChecksummer where
  ctype : String
  fileExt : String
  parseChecksum : String → Option (List Nat)
  checksum : List Nat → List Nat → Bool
  sumBytes : List Nat → Option (List Nat)
  getChecksumOfFile : String → Option (List Nat)
  checksumFile : List Nat → String → Bool

/-- Result of one `getter.Get("zip", …)` call together with the
streaming of its body into the temporary file: a transport failure of
the call itself, an `io.Copy` failure, a `Seek` failure, or the fetched
archive bytes. -/
inductive ZipGet where
  | transportErr
  | copyErr
  | seekErr
  | ok (b : List Nat)
deriving DecidableEq

/-- Model of the `Getter` interface: the three artifact kinds it can be
asked for.  Each kind distinguishes a transport failure (outer `none`)
from a parse failure of the fetched stream (inner `none`), because the
source handles the two differently. -/
structure GoGetter where
  getReleases : Option (Option (List Release))
  getChecksum : String → Ver → Option (Option (List RawEntry))
  getZip : Ver → ZipGet

/-- Model of the `Requirement` fields the getter core reads: the
identifier's type (for the filename), its path parts, and the
constraint check of the external constraint engine (spec §3
"ConstraintSet"). -/
structure GoRequirement where
  identType : String
  identParts : List String
  constraintsCheck : Ver → Bool

/-- Model of `BinaryInstallationOptions`. -/
structure BinOptsGo where
  apiMajor : String
  apiMinor : String
  goos : String
  goarch : String
  ext : String
  checksummers : List GoChecksummer

/-- Model of `InstallOptions`. -/
structure InstallOptsGo where
  getters : List GoGetter
  inFolders : List String
  binOpts : BinOptsGo

/-- Model of the `FileChecksum` struct. -/
structure FileChecksum where
  filename : String
  expected : List Nat
  checksummer : GoChecksummer

/-- One entry of the fetched zip archive: its name and the outcome of
`File.Open` on it. -/
structure ZipEntry where
  name : String
  opened : Option (List Nat)

/-- The external world the installer touches besides the getters:
`archive/zip` reading of the fetched bytes, `os.MkdirAll`, `tmp.File`,
`os.OpenFile` of the output binary and the `io.Copy` into it. -/
structure ExtEnv where
  parseZipArchive : List Nat → Option (List ZipEntry)
  mkdirOk : String → Bool
  tmpFileOk : Bool
  openOutputOk : String → Bool
  copyToOutputOk : String → Bool

/-- Model of `Requirement.FilenamePrefix()`. -/
def fnamePref (pr : GoRequirement) : String :=
  "packer-plugin-" ++ pr.identType ++ "_"

/-- Model of `BinaryInstallationOptions.filenameSuffix()`. -/
def fnameSuf (opts : BinOptsGo) : String :=
  "_" ++ opts.goos ++ "_" ++ opts.goarch ++ opts.ext

/-! ## Filename grammar (`ChecksumFileEntry.init` and formatting) -/

/-- Model of `ChecksumFileEntry.init`: trim the filename prefix with the
cut-set `TrimLeft`, take the extension, trim it with the cut-set
`TrimRight`, split on underscores and require at least four parts —
exactly the operations of the source, including its character-set trim
semantics. -/
def entryInitGo (pref filename : String) : Option EntryFields :=
  let res := goTrimLeftCS filename pref
  let e := filepathExtGo res
  let res := goTrimRightCS res e
  match splitOnChar '_' res.data with
  | p0 :: p1 :: p2 :: p3 :: _ =>
    some { ext := e, binVersion := ⟨p0⟩, protVersion := ⟨p1⟩, goos := ⟨p2⟩, goarch := ⟨p3⟩ }
  | _ => none

/-- Model of `ChecksumFileEntry.validate`: the parsed fields must name
the requested version, operating system and architecture, and the
protocol version must be compatible. -/
def entryValidateGo (opts : BinOptsGo) (v : Ver) (f : EntryFields) : Bool :=
  if f.binVersion ≠ "v" ++ vString v then false
  else if f.goos ≠ opts.goos ∨ f.goarch ≠ opts.goarch then false
  else
    match checkProtocolVersion opts.apiMajor opts.apiMinor f.protVersion with
    | .ok _ => true
    | .error _ => false

/-- The canonical filename of spec §4.1:
prefix, version, protocol, os and arch joined by underscores, then the
extension.  `GetOptions.ExpectedFilename` produces exactly this shape. -/
def formatPluginFilename (pref ver proto goos goarch ext : String) : String :=
  pref ++ ver ++ "_" ++ proto ++ "_" ++ goos ++ "_" ++ goarch ++ ext

/-- Model of `GetOptions.ExpectedFilename`. -/
def expectedFilenameGo (pr : GoRequirement) (opts : BinOptsGo) (v : Ver) : String :=
  fnamePref pr ++ ("v" ++ vString v) ++ fnameSuf opts

/-! ## `InstallList.InsertSortedUniq` -/

/-- Model of `InstallList.InsertSortedUniq`.  `sort.Search` returns the
least index whose element's version is not below the inserted version
(the list being kept sorted, the searched predicate is monotone, so the
binary search is its specification); a present version is left alone,
otherwise the installation is inserted at that index. -/
def insertSortedUniq (l : List Installation) (inst : Installation) : List Installation :=
  let pos := l.findIdx fun e => strLe inst.version e.version
  match l[pos]? with
  | some e =>
    if e.version = inst.version then l
    else l.take pos ++ inst :: l.drop pos
  | none => l.take pos ++ inst :: l.drop pos

/-! ## `ListInstallations` (discovery) -/

/-- Checksum gate of the discovery loop: the first checksummer that
yields a sidecar digest for the file and verifies the file against it
marks the binary as trusted. -/
def discoveryChecksumOk (cks : List GoChecksummer) (path : String) : Bool :=
  cks.any fun c =>
    match c.getChecksumOfFile path with
    | some cs => c.checksumFile cs path
    | none => false

/-- Per-match body of the `ListInstallations` loop.  `none` is a Go
panic (the unconditional `parts[1]` index), `some none` a skipped file,
`some (some inst)` a candidate for insertion. -/
def processFile (pr : GoRequirement) (opts : BinOptsGo) (path : String) :
    Option (Option Installation) :=
  if baseNameGo path = "." then some none
  else
    match splitN2 '_'
        (goTrimSuf (goTrimPre (baseNameGo path) (fnamePref pr)) (fnameSuf opts)).data with
    | p0 :: p1 :: _ =>
      match parseVersion ⟨p0⟩ with
      | none => some none
      | some pv =>
        if ¬ pr.constraintsCheck pv then some none
        else
          match checkProtocolVersion opts.apiMajor opts.apiMinor ⟨p1⟩ with
          | .error _ => some none
          | .ok _ =>
            if discoveryChecksumOk opts.checksummers path then
              some (some { binaryPath := path, version := ⟨p0⟩ })
            else some none
    | _ => none

/-- Fold of `processFile` over the glob matches, threading the result
list through `insertSortedUniq`; a panic aborts everything. -/
def scanFiles (pr : GoRequirement) (opts : BinOptsGo) :
    List String → List Installation → Option (List Installation)
  | [], acc => some acc
  | p :: ps, acc =>
    match processFile pr opts p with
    | none => none
    | some none => scanFiles pr opts ps acc
    | some (some inst) => scanFiles pr opts ps (insertSortedUniq acc inst)

/-- Model of `Requirement.ListInstallations`: the glob results of each
folder (in folder order) are supplied by the environment; `none` is the
Go panic on a middle segment without an underscore. -/
def listInstallationsGo (pr : GoRequirement) (opts : BinOptsGo)
    (matchesPerFolder : List (List String)) : Option (List Installation) :=
  scanFiles pr opts matchesPerFolder.flatten []

/-! ## `InstallLatest` -/

/-- The fatal error values `InstallLatest` can return. -/
inductive IErr where
  | noReleaseVersion
  | mkdirFailed
  | checksumTransport
  | noChecksumFound
  | tmpFileFailed
  | archiveOpen
  | entryOpen
  | missingEntry
  | createOutput
  | extractWrite
deriving DecidableEq

/-- Filesystem-modifying (or fetching) actions of one `InstallLatest`
call, in order. -/
inductive Effect where
  | mkdirAll (d : String)
  | createTmp
  | fetchZip (v : Ver)
  | truncTmp
  | writeBinary (p : String)
  | writeSidecar (p : String)
deriving DecidableEq

/-- Outcome of one per-version attempt of the install loop.
`exhausted` means every getter failed softly and the outer loop moves to
the next version. -/
inductive AttemptResult where
  | panicked
  | fatal (e : IErr)
  | noop
  | installed (inst : Installation)
  | exhausted
deriving DecidableEq

/-- Outcome of the whole `InstallLatest` call. -/
inductive IResult where
  | panicked
  | fatal (e : IErr)
  | noop
  | installed (inst : Installation)
deriving DecidableEq

/-- Phase A inner collection: parse every release version (an
unparsable one is a Go panic, `none`) and keep those that satisfy the
constraints. -/
def collectSat (pr : GoRequirement) : List Release → Option (List Ver)
  | [] => some []
  | r :: rs =>
    match parseVersion r.version with
    | none => none
    | some v =>
      match collectSat pr rs with
      | none => none
      | some vs => some (if pr.constraintsCheck v then v :: vs else vs)

/-- Phase A of `InstallLatest`: walk the getters; transport failures,
unparsable release indices and empty or unsatisfying index contents move
to the next getter; the first getter with at least one satisfying
version ends the walk with the versions sorted descending.  `none` is
the Go panic on an unparsable version string. -/
def phaseA (pr : GoRequirement) : List GoGetter → Option (List Ver)
  | [] => some []
  | g :: gs =>
    match g.getReleases with
    | none => phaseA pr gs
    | some none => phaseA pr gs
    | some (some rs) =>
      if rs = [] then phaseA pr gs
      else
        match collectSat pr rs with
        | none => none
        | some vs => if vs = [] then phaseA pr gs else some (sortDesc vs)

/-- Entry scan of the checksum-location loop: the first manifest entry
that parses (`init`), validates and whose checksum text parses becomes
the `FileChecksum`. -/
def scanEntries (pr : GoRequirement) (opts : BinOptsGo) (v : Ver) (c : GoChecksummer) :
    List RawEntry → Option FileChecksum
  | [] => none
  | e :: es =>
    match entryInitGo (fnamePref pr) e.filename with
    | none => scanEntries pr opts v c es
    | some f =>
      if ¬ entryValidateGo opts v f then scanEntries pr opts v c es
      else
        match c.parseChecksum e.checksum with
        | none => scanEntries pr opts v c es
        | some cs => some { filename := e.filename, expected := cs, checksummer := c }

/-- Result of the checksum-location double loop. -/
inductive LocateResult where
  | fatalTransport
  | found (fc : FileChecksum)
  | notFound

/-- Inner (checksummer) loop of checksum location for one getter: a
transport failure of the manifest fetch is returned as a fatal error
(the source returns `nil, err` there); a manifest that does not parse
moves to the next checksummer. -/
def locateInner (pr : GoRequirement) (opts : BinOptsGo) (v : Ver) (g : GoGetter) :
    List GoChecksummer → LocateResult
  | [] => .notFound
  | c :: cs =>
    match g.getChecksum c.ctype v with
    | none => .fatalTransport
    | some none => locateInner pr opts v g cs
    | some (some entries) =>
      match scanEntries pr opts v c entries with
      | some fc => .found fc
      | none => locateInner pr opts v g cs

/-- Outer (getter) loop of checksum location. -/
def locateChecksum (pr : GoRequirement) (opts : BinOptsGo) (v : Ver) :
    List GoGetter → LocateResult
  | [] => .notFound
  | g :: gs =>
    match locateInner pr opts v g opts.checksummers with
    | .fatalTransport => .fatalTransport
    | .found fc => .found fc
    | .notFound => locateChecksum pr opts v gs

/-- The idempotence short-circuit condition: some checksummer finds a
non-empty sidecar digest at the output name and the binary there
verifies against it. -/
def alreadyInstalled (cks : List GoChecksummer) (outName : String) : Bool :=
  cks.any fun c =>
    match c.getChecksumOfFile outName with
    | some cs => decide (cs ≠ []) && c.checksumFile cs outName
    | none => false

/-- The archive-entry search of the extract step: the first zip entry
whose name is the base name of the output file. -/
def findZipEntry (base : String) : List ZipEntry → Option ZipEntry
  | [] => none
  | f :: fs => if f.name = base then some f else findZipEntry base fs

/-- The per-getter zip loop: create a temporary file, fetch and stream
the archive, verify it against the located checksum (mismatch truncates
and moves on), open it as a zip, extract the expected entry into the
output file and write the sidecar digest.  Transport, copy, seek and
verification failures move to the next getter; the later failures are
fatal, exactly as in the source. -/
def zipLoop (env : ExtEnv) (fc : FileChecksum) (outName : String) (v : Ver) :
    List GoGetter → AttemptResult × List Effect
  | [] => (.exhausted, [])
  | g :: gs =>
    if ¬ env.tmpFileOk then (.fatal .tmpFileFailed, [])
    else
      match g.getZip v with
      | .transportErr =>
        ((zipLoop env fc outName v gs).1,
         .createTmp :: .fetchZip v :: (zipLoop env fc outName v gs).2)
      | .copyErr =>
        ((zipLoop env fc outName v gs).1,
         .createTmp :: .fetchZip v :: (zipLoop env fc outName v gs).2)
      | .seekErr =>
        ((zipLoop env fc outName v gs).1,
         .createTmp :: .fetchZip v :: (zipLoop env fc outName v gs).2)
      | .ok b =>
        if ¬ fc.checksummer.checksum fc.expected b then
          ((zipLoop env fc outName v gs).1,
           .createTmp :: .fetchZip v :: .truncTmp :: (zipLoop env fc outName v gs).2)
        else
          match env.parseZipArchive b with
          | none => (.fatal .archiveOpen, [.createTmp, .fetchZip v])
          | some entries =>
            match findZipEntry (baseNameGo outName) entries with
            | none => (.fatal .missingEntry, [.createTmp, .fetchZip v])
            | some f =>
              match f.opened with
              | none => (.fatal .entryOpen, [.createTmp, .fetchZip v])
              | some _ =>
                if ¬ env.openOutputOk outName then
                  (.fatal .createOutput, [.createTmp, .fetchZip v])
                else if ¬ env.copyToOutputOk outName then
                  (.fatal .extractWrite, [.createTmp, .fetchZip v, .writeBinary outName])
                else
                  (.installed { binaryPath := outName, version := "v" ++ vString v },
                   [.createTmp, .fetchZip v, .writeBinary outName,
                    .writeSidecar (outName ++ fc.checksummer.fileExt)])

/-- The output folder of a version attempt: the last `InFolders` entry
joined with the identifier parts. -/
def outFolderOf (lastF : String) (pr : GoRequirement) : String :=
  joinPath (lastF :: pr.identParts)

/-- The output file of a version attempt: the located checksum's
filename without its extension, inside the output folder. -/
def outNameOf (lastF : String) (pr : GoRequirement) (fc : FileChecksum) : String :=
  joinPath [outFolderOf lastF pr, goTrimSuf fc.filename (filepathExtGo fc.filename)]

/-- One per-version attempt of `InstallLatest`: select the last folder
(an empty `InFolders` list is the Go index-out-of-range panic), create
the parent directory, locate a checksum, short-circuit when the output
is already installed and verified, otherwise run the zip loop. -/
def attemptVersion (env : ExtEnv) (opts : InstallOptsGo) (pr : GoRequirement) (v : Ver) :
    AttemptResult × List Effect :=
  match opts.inFolders.getLast? with
  | none => (.panicked, [])
  | some lastF =>
    let outFolder := outFolderOf lastF pr
    if ¬ env.mkdirOk (dirNameGo outFolder) then
      (.fatal .mkdirFailed, [.mkdirAll (dirNameGo outFolder)])
    else
      match locateChecksum pr opts.binOpts v opts.getters with
      | .fatalTransport => (.fatal .checksumTransport, [.mkdirAll (dirNameGo outFolder)])
      | .notFound => (.fatal .noChecksumFound, [.mkdirAll (dirNameGo outFolder)])
      | .found fc =>
        if alreadyInstalled opts.binOpts.checksummers (outNameOf lastF pr fc) then
          (.noop, [.mkdirAll (dirNameGo outFolder)])
        else
          ((zipLoop env fc (outNameOf lastF pr fc) v opts.getters).1,
           .mkdirAll (dirNameGo outFolder) ::
             (zipLoop env fc (outNameOf lastF pr fc) v opts.getters).2)

/-- Carry a terminal attempt outcome out as the outcome of the whole
call (the `exhausted` case never reaches this conversion). -/
def liftAttempt : AttemptResult → IResult
  | .panicked => .panicked
  | .fatal e => .fatal e
  | .noop => .noop
  | .installed i => .installed i
  | .exhausted => .noop

/-- Phase B of `InstallLatest`: try the versions in order; a fatal
error, a no-op and a success all end the call, an exhausted attempt
moves to the next version, and an exhausted version list is the
`(nil, nil)` return. -/
def tryVersions (env : ExtEnv) (opts : InstallOptsGo) (pr : GoRequirement) :
    List Ver → IResult × List Effect
  | [] => (.noop, [])
  | v :: vs =>
    if (attemptVersion env opts pr v).1 = .exhausted then
      ((tryVersions env opts pr vs).1,
       (attemptVersion env opts pr v).2 ++ (tryVersions env opts pr vs).2)
    else
      (liftAttempt (attemptVersion env opts pr v).1, (attemptVersion env opts pr v).2)

/-- Model of `Requirement.InstallLatest`: phase A then the per-version
loop; no satisfying version is the "no release version found" error. -/
def installLatestGo (env : ExtEnv) (opts : InstallOptsGo) (pr : GoRequirement) :
    IResult × List Effect :=
  match phaseA pr opts.getters with
  | none => (.panicked, [])
  | some vs =>
    if vs = [] then (.fatal .noReleaseVersion, [])
    else tryVersions env opts pr vs

/-! ## Concrete scenarios

Small concrete collaborators used to exercise the model on closed
inputs: a well-behaved checksummer and getter pair for the plugin type
`foo`, plus deliberately failing variants. -/

/-- A sha256-style checksummer whose digest of any byte stream is the
stream itself, with no sidecar files on disk. -/
def demoCk : GoChecksummer where
  ctype := "sha256"
  fileExt := ".sha256"
  parseChecksum := fun s => if s = "good" then some [1, 2, 3] else none
  checksum := fun e b => e == b
  sumBytes := fun b => some b
  getChecksumOfFile := fun _ => none
  checksumFile := fun _ _ => false

/-- The manifest entry a demo getter serves for a given version of the
`foo` plugin. -/
def demoEntry (v : Ver) : RawEntry where
  filename := "packer-plugin-foo_" ++ ("v" ++ vString v) ++ "_x5.0_linux_amd64.zip"
  checksum := "good"

/-- A getter serving one release (`1.2.3`), a matching manifest and an
archive whose bytes are the expected digest. -/
def demoGetter : GoGetter where
  getReleases := some (some [{ version := "1.2.3" }])
  getChecksum := fun _ v => some (some [demoEntry v])
  getZip := fun _ => .ok [1, 2, 3]

/-- The demo requirement: plugin type `foo` with no constraints. -/
def demoPr : GoRequirement where
  identType := "foo"
  identParts := ["github.com", "ex", "foo"]
  constraintsCheck := fun _ => true

/-- Demo binary-installation options: protocol 5.0 on linux amd64. -/
def demoBinOpts : BinOptsGo where
  apiMajor := "5"
  apiMinor := "0"
  goos := "linux"
  goarch := "amd64"
  ext := ""
  checksummers := [demoCk]

/-- Demo install options over the demo getter and a single folder. -/
def demoOpts : InstallOptsGo where
  getters := [demoGetter]
  inFolders := ["plug"]
  binOpts := demoBinOpts

/-- A well-behaved external world: every filesystem operation succeeds
and the fetched bytes open as a zip holding exactly the expected entry. -/
def demoEnv : ExtEnv where
  parseZipArchive := fun b =>
    some [{ name := "packer-plugin-foo_v1.2.3_x5.0_linux_amd64", opened := some b }]
  mkdirOk := fun _ => true
  tmpFileOk := true
  openOutputOk := fun _ => true
  copyToOutputOk := fun _ => true

/-- The binary the demo scenario installs. -/
def demoInst : Installation where
  binaryPath := "plug/github.com/ex/foo/packer-plugin-foo_v1.2.3_x5.0_linux_amd64"
  version := "v1.2.3"

/-- A getter whose checksum-manifest fetch always fails at the
transport level, while its release index and archive are fine. -/
def c2BadGetter : GoGetter where
  getReleases := some (some [{ version := "1.2.3" }])
  getChecksum := fun _ _ => none
  getZip := fun _ => .ok [1, 2, 3]

/-- Install options that put the transport-broken getter first and the
good getter second. -/
def c2Opts : InstallOptsGo where
  getters := [c2BadGetter, demoGetter]
  inFolders := ["plug"]
  binOpts := demoBinOpts

/-- A getter whose archive fetch fails at the transport level. -/
def c2ZipBadGetter : GoGetter where
  getReleases := some (some [{ version := "1.2.3" }])
  getChecksum := fun _ v => some (some [demoEntry v])
  getZip := fun _ => .transportErr

/-- A checksummer that reports the demo output binary as already
present and verified by its sidecar. -/
def c7Ck : GoChecksummer where
  ctype := "sha256"
  fileExt := ".sha256"
  parseChecksum := fun s => if s = "good" then some [1, 2, 3] else none
  checksum := fun e b => e == b
  sumBytes := fun b => some b
  getChecksumOfFile := fun p =>
    if p = "plug/github.com/ex/foo/packer-plugin-foo_v1.2.3_x5.0_linux_amd64" then some [9]
    else none
  checksumFile := fun cs p =>
    cs == [9] && p == "plug/github.com/ex/foo/packer-plugin-foo_v1.2.3_x5.0_linux_amd64"

/-- Install options whose checksummer finds the demo binary already
installed. -/
def c7Opts : InstallOptsGo where
  getters := [demoGetter]
  inFolders := ["plug"]
  binOpts := { demoBinOpts with checksummers := [c7Ck] }

/-- A checksummer that vouches for the discovered binary on disk. -/
def discCk : GoChecksummer where
  ctype := "sha256"
  fileExt := ".sha256"
  parseChecksum := fun _ => none
  checksum := fun e b => e == b
  sumBytes := fun b => some b
  getChecksumOfFile := fun p =>
    if p = "plug/github.com/ex/foo/packer-plugin-foo_v1.2.3_x5.0_linux_amd64" then some [5]
    else none
  checksumFile := fun cs p =>
    cs == [5] && p == "plug/github.com/ex/foo/packer-plugin-foo_v1.2.3_x5.0_linux_amd64"

/-- Discovery options with the vouching checksummer. -/
def discOpts : BinOptsGo :=
  { demoBinOpts with checksummers := [discCk] }

/-- A getter whose release index contains an unparsable version. -/
def c9Getter : GoGetter where
  getReleases := some (some [{ version := "not-a-version" }])
  getChecksum := fun _ v => some (some [demoEntry v])
  getZip := fun _ => .ok [1, 2, 3]

/-- Install options over the unparsable release index. -/
def c9Opts : InstallOptsGo where
  getters := [c9Getter]
  inFolders := ["plug"]
  binOpts := demoBinOpts

/-- Install options with an empty folder list. -/
def c10Opts : InstallOptsGo where
  getters := [demoGetter]
  inFolders := []
  binOpts := demoBinOpts


/-- A getter serving two releases so that the version preference is
visible. -/
def c5Getter : GoGetter where
  getReleases := some (some [{ version := "1.2.3" }, { version := "2.0.0" }])
  getChecksum := fun _ v => some (some [demoEntry v])
  getZip := fun _ => .ok [1, 2, 3]

/-- Install options over the two-release getter. -/
def c5Opts : InstallOptsGo where
  getters := [c5Getter]
  inFolders := ["plug"]
  binOpts := demoBinOpts

/-- External world whose archive holds the highest version's binary. -/
def c5Env : ExtEnv where
  parseZipArchive := fun b =>
    some [{ name := "packer-plugin-foo_v2.0.0_x5.0_linux_amd64", opened := some b }]
  mkdirOk := fun _ => true
  tmpFileOk := true
  openOutputOk := fun _ => true
  copyToOutputOk := fun _ => true

/-- The file checksum the demo getter's manifest yields. -/
def demoFc : FileChecksum where
  filename := "packer-plugin-foo_v1.2.3_x5.0_linux_amd64.zip"
  expected := [1, 2, 3]
  checksummer := demoCk

/-- The file checksum located in the already-installed scenario. -/
def c7Fc : FileChecksum where
  filename := "packer-plugin-foo_v1.2.3_x5.0_linux_amd64.zip"
  expected := [1, 2, 3]
  checksummer := c7Ck

/-- A getter whose checksum manifests fetch but never parse. -/
def c2ParseBadGetter : GoGetter where
  getReleases := some (some [{ version := "1.2.3" }])
  getChecksum := fun _ _ => some (some [])
  getZip := fun _ => .ok [1, 2, 3]

/-- A getter whose checksum manifests fetch but do not parse at all. -/
def c2NoParseGetter : GoGetter where
  getReleases := some (some [{ version := "1.2.3" }])
  getChecksum := fun _ _ => some none
  getZip := fun _ => .ok [1, 2, 3]

/-- Install options whose only getter never yields a usable manifest
entry, so no checksum is found across all pairs. -/
def c2NfOpts : InstallOptsGo where
  getters := [c2ParseBadGetter]
  inFolders := ["plug"]
  binOpts := demoBinOpts

/-- An external world whose archive opens fine but holds no entry with
the expected binary name. -/
def c2MissEnv : ExtEnv where
  parseZipArchive := fun b => some [{ name := "other", opened := some b }]
  mkdirOk := fun _ => true
  tmpFileOk := true
  openOutputOk := fun _ => true
  copyToOutputOk := fun _ => true

/-! ## Theorems -/

/-! ### Toolkit for the lexicographic orders -/

/-- Head characterisation of the lexicographic order. -/
theorem lexLt_cons_iff {A : Type} [LinearOrder A] {x y : A} {xs ys : List A} :
    lexLt (x :: xs) (y :: ys) = true ↔ (x < y ∨ (x = y ∧ lexLt xs ys = true)) := by
  simp only [lexLt]
  by_cases h1 : x < y
  · simp [h1]
  · by_cases h2 : y < x
    · have hne : x ≠ y := ne_of_gt h2
      simp [h1, h2, hne]
    · have hxy : x = y := le_antisymm (not_lt.mp h2) (not_lt.mp h1)
      simp [h1, h2, hxy]

/-- The lexicographic order is irreflexive. -/
theorem lexLt_irrefl {A : Type} [LinearOrder A] (a : List A) : lexLt a a = false := by
  induction a with
  | nil => rfl
  | cons x xs ih => simp [lexLt, lt_irrefl, ih]

/-- The lexicographic order is transitive. -/
theorem lexLt_trans {A : Type} [LinearOrder A] :
    ∀ {a b c : List A}, lexLt a b = true → lexLt b c = true → lexLt a c = true
  | _, [], _, h1, _ => by simp [lexLt] at h1
  | _, _ :: _, [], _, h2 => by simp [lexLt] at h2
  | [], y :: ys, z :: zs, _, _ => by simp [lexLt]
  | x :: xs, y :: ys, z :: zs, h1, h2 => by
    rcases lexLt_cons_iff.mp h1 with hxy | ⟨rfl, hxs⟩
    · rcases lexLt_cons_iff.mp h2 with hyz | ⟨rfl, hys⟩
      · exact lexLt_cons_iff.mpr (Or.inl (lt_trans hxy hyz))
      · exact lexLt_cons_iff.mpr (Or.inl hxy)
    · rcases lexLt_cons_iff.mp h2 with hyz | ⟨rfl, hys⟩
      · exact lexLt_cons_iff.mpr (Or.inl hyz)
      · exact lexLt_cons_iff.mpr (Or.inr ⟨rfl, lexLt_trans hxs hys⟩)

/-- Two lists neither of which is lexicographically below the other are
equal. -/
theorem lexLt_eq_of_not {A : Type} [LinearOrder A] :
    ∀ {a b : List A}, lexLt a b = false → lexLt b a = false → a = b
  | [], [], _, _ => rfl
  | [], _ :: _, h1, _ => by simp [lexLt] at h1
  | _ :: _, [], _, h2 => by simp [lexLt] at h2
  | x :: xs, y :: ys, h1, h2 => by
    have n1 := @lexLt_cons_iff A _ x y xs ys
    have n2 := @lexLt_cons_iff A _ y x ys xs
    rw [h1] at n1; rw [h2] at n2
    have hxy : ¬ x < y := fun h => by simp [h] at n1
    have hyx : ¬ y < x := fun h => by simp [h] at n2
    have hx : x = y := le_antisymm (not_lt.mp hyx) (not_lt.mp hxy)
    subst hx
    have htail : lexLt xs ys = false := by
      cases h : lexLt xs ys with
      | false => rfl
      | true => simp [h] at n1
    have htail2 : lexLt ys xs = false := by
      cases h : lexLt ys xs with
      | false => rfl
      | true => simp [h] at n2
    rw [lexLt_eq_of_not htail htail2]

/-- String transitivity. -/
theorem strLt_trans {a b c : String} (h1 : strLt a b = true) (h2 : strLt b c = true) :
    strLt a c = true := lexLt_trans h1 h2

/-- String irreflexivity. -/
theorem strLt_irrefl (a : String) : strLt a a = false := lexLt_irrefl a.data

/-- A true `strLe` is a strict inequality or an equality. -/
theorem strLe_cases {a b : String} (h : strLe a b = true) : strLt a b = true ∨ a = b := by
  rcases Bool.or_eq_true_iff.mp h with h | h
  · exact Or.inl h
  · right
    have : a.data = b.data := by simpa using h
    cases a; cases b; exact congrArg String.mk this

/-- A false `strLe` means the reverse strict inequality. -/
theorem strLt_of_not_le {a b : String} (h : strLe a b = false) : strLt b a = true := by
  have h1 : strLt a b = false := by
    cases hx : strLt a b with
    | false => rfl
    | true => rw [strLe, hx] at h; simp at h
  have h2 : a.data ≠ b.data := by
    intro hx
    rw [strLe, hx] at h; simp at h
  cases hx : strLt b a with
  | true => rfl
  | false =>
    exact absurd (congrArg String.data (lexLt_eq_of_not h1 hx ▸ rfl : (⟨a.data⟩ : String) = ⟨a.data⟩)) (by
      have := lexLt_eq_of_not (a := a.data) (b := b.data) h1 hx
      exact fun _ => h2 this)

/-- A strict inequality falsifies the reverse `strLe`. -/
theorem strLe_false_of_lt {a b : String} (h : strLt b a = true) : strLe a b = false := by
  cases hx : strLe a b with
  | false => rfl
  | true =>
    rcases strLe_cases hx with hlt | rfl
    · have := strLt_trans hlt h
      rw [strLt_irrefl] at this; exact absurd this (by simp)
    · rw [strLt_irrefl] at h; exact absurd h (by simp)

/-! ### The `InsertSortedUniq` invariant (claim C6) -/

/-- Unfolding `insertSortedUniq` when the inserted version is not above
the head's: the search stops at position zero. -/
theorem insertSortedUniq_cons_ge (e : Installation) (es : List Installation)
    (inst : Installation) (h : strLe inst.version e.version = true) :
    insertSortedUniq (e :: es) inst =
      if e.version = inst.version then e :: es else inst :: e :: es := by
  unfold insertSortedUniq
  simp only [List.findIdx_cons, h, cond_true, List.getElem?_cons_zero, List.take_zero,
    List.drop_zero, List.nil_append]

/-- Unfolding `insertSortedUniq` when the inserted version is above the
head's: the head is kept and the insertion happens in the tail. -/
theorem insertSortedUniq_cons_lt (e : Installation) (es : List Installation)
    (inst : Installation) (h : strLe inst.version e.version = false) :
    insertSortedUniq (e :: es) inst = e :: insertSortedUniq es inst := by
  unfold insertSortedUniq
  simp only [List.findIdx_cons, h, cond_false, List.getElem?_cons_succ,
    List.take_succ_cons, List.drop_succ_cons]
  cases h' : es[es.findIdx fun x => strLe inst.version x.version]? with
  | none => simp [h']
  | some f => by_cases hf : f.version = inst.version <;> simp [h', hf]

/-- Membership in the insertion result comes from the old list or is
the inserted element. -/
theorem mem_insertSortedUniq {l : List Installation} {inst x : Installation}
    (h : x ∈ insertSortedUniq l inst) : x ∈ l ∨ x = inst := by
  induction l with
  | nil =>
    right
    simpa [insertSortedUniq] using h
  | cons e es ih =>
    cases hle : strLe inst.version e.version with
    | true =>
      rw [insertSortedUniq_cons_ge e es inst hle] at h
      by_cases hf : e.version = inst.version
      · rw [if_pos hf] at h; exact Or.inl h
      · rw [if_neg hf] at h
        rcases List.mem_cons.1 h with rfl | h
        · exact Or.inr rfl
        · exact Or.inl h
    | false =>
      rw [insertSortedUniq_cons_lt e es inst hle] at h
      rcases List.mem_cons.1 h with rfl | h
      · exact Or.inl (List.mem_cons_self _ _)
      · rcases ih h with h | h
        · exact Or.inl (List.mem_cons_of_mem _ h)
        · exact Or.inr h

/-- Inserting into a strictly-ascending list keeps it strictly
ascending. -/
theorem pairwise_insertSortedUniq {l : List Installation} {inst : Installation}
    (h : l.Pairwise fun a b => strLt a.version b.version = true) :
    (insertSortedUniq l inst).Pairwise fun a b => strLt a.version b.version = true := by
  induction l with
  | nil => simp [insertSortedUniq]
  | cons e es ih =>
    obtain ⟨he, hes⟩ := List.pairwise_cons.mp h
    cases hle : strLe inst.version e.version with
    | true =>
      rw [insertSortedUniq_cons_ge e es inst hle]
      by_cases heq : e.version = inst.version
      · simpa [heq] using h
      · have hlt : strLt inst.version e.version = true := by
          rcases strLe_cases hle with h' | h'
          · exact h'
          · exact absurd h'.symm heq
        rw [if_neg heq]
        refine List.pairwise_cons.mpr ⟨?_, h⟩
        intro x hx
        rcases List.mem_cons.1 hx with rfl | hx
        · exact hlt
        · exact strLt_trans hlt (he x hx)
    | false =>
      rw [insertSortedUniq_cons_lt e es inst hle]
      refine List.pairwise_cons.mpr ⟨?_, ih hes⟩
      intro x hx
      rcases mem_insertSortedUniq hx with hx | rfl
      · exact he x hx
      · exact strLt_of_not_le hle

/-- Inserting a version already present in a strictly-ascending list
leaves it unchanged (the first inserted installation wins). -/
theorem insertSortedUniq_dup {l : List Installation} {inst : Installation}
    (hs : l.Pairwise fun a b => strLt a.version b.version = true)
    (h : ∃ e ∈ l, e.version = inst.version) :
    insertSortedUniq l inst = l := by
  induction l with
  | nil => simp at h
  | cons e es ih =>
    obtain ⟨he, hes⟩ := List.pairwise_cons.mp hs
    obtain ⟨w, hw, hwv⟩ := h
    rcases List.mem_cons.1 hw with rfl | hw
    · have hle : strLe inst.version w.version = true := by
        rw [strLe, hwv]
        simp
      rw [insertSortedUniq_cons_ge w es inst hle, if_pos hwv]
    · have hlt : strLt e.version inst.version = true := hwv ▸ he w hw
      rw [insertSortedUniq_cons_lt e es inst (strLe_false_of_lt hlt)]
      rw [ih hes ⟨w, hw, hwv⟩]

/-- Folding insertions over any start list preserves the
strictly-ascending invariant. -/
theorem pairwise_foldl_insertSortedUniq (ops : List Installation)
    (acc : List Installation)
    (hacc : acc.Pairwise fun a b => strLt a.version b.version = true) :
    (ops.foldl insertSortedUniq acc).Pairwise
      fun a b => strLt a.version b.version = true := by
  induction ops generalizing acc with
  | nil => exact hacc
  | cons o os ih => exact ih _ (pairwise_insertSortedUniq hacc)

/-- Claim C6: after any sequence of `InsertSortedUniq` calls starting
from the empty list, the `InstallList` is strictly ascending by
lexicographic comparison of the `Version` strings (hence holds at most
one installation per version), and inserting an installation whose
version is already present leaves the list unchanged — the first
inserted installation wins. -/
theorem claim_C6 (ops : List Installation) :
    (ops.foldl insertSortedUniq []).Pairwise
      (fun a b => strLt a.version b.version = true)
    ∧ ∀ inst : Installation,
        (∃ e ∈ ops.foldl insertSortedUniq [], e.version = inst.version) →
        insertSortedUniq (ops.foldl insertSortedUniq []) inst =
          ops.foldl insertSortedUniq [] := by
  have hs := pairwise_foldl_insertSortedUniq ops [] List.Pairwise.nil
  exact ⟨hs, fun inst h => insertSortedUniq_dup hs h⟩

/-- Witness for claim C6 at a concrete insertion sequence: three
insertions (the last a duplicate version) build a strictly ascending
two-element list, and a further duplicate insertion leaves it
unchanged. -/
theorem claim_C6_witness :
    (([⟨"p1", "v1.2.4"⟩, ⟨"p2", "v1.2.3"⟩, ⟨"p3", "v1.2.3"⟩] :
        List Installation).foldl insertSortedUniq []).Pairwise
      (fun a b => strLt a.version b.version = true)
    ∧ insertSortedUniq
        (([⟨"p1", "v1.2.4"⟩, ⟨"p2", "v1.2.3"⟩, ⟨"p3", "v1.2.3"⟩] :
            List Installation).foldl insertSortedUniq [])
        ⟨"p4", "v1.2.4"⟩ =
        ([⟨"p1", "v1.2.4"⟩, ⟨"p2", "v1.2.3"⟩, ⟨"p3", "v1.2.3"⟩] :
            List Installation).foldl insertSortedUniq [] :=
  ⟨(claim_C6 [⟨"p1", "v1.2.4"⟩, ⟨"p2", "v1.2.3"⟩, ⟨"p3", "v1.2.3"⟩]).1,
   (claim_C6 [⟨"p1", "v1.2.4"⟩, ⟨"p2", "v1.2.3"⟩, ⟨"p3", "v1.2.3"⟩]).2
     ⟨"p4", "v1.2.4"⟩ (by decide)⟩


/-! ### Decimal numeral toolkit (for claim C3) -/

/-- With enough fuel, the fuelled digits agree with `Nat.digits`. -/
theorem natDigitsRev_eq : ∀ fuel n : Nat, n ≤ fuel → natDigitsRev fuel n = Nat.digits 10 n := by
  intro fuel
  induction fuel with
  | zero =>
    intro n hn
    interval_cases n
    simp [natDigitsRev]
  | succ fuel ih =>
    intro n hn
    by_cases h : n = 0
    · subst h; simp [natDigitsRev]
    · have hdiv : n / 10 ≤ fuel := by
        have := Nat.div_lt_self (Nat.pos_of_ne_zero h) (by norm_num : 1 < 10)
        omega
      rw [natDigitsRev, if_neg h, ih (n / 10) hdiv,
        Nat.digits_def' (by norm_num : 1 < 10) (Nat.pos_of_ne_zero h)]

/-- The canonical numeral in terms of `Nat.digits`. -/
theorem natStrData_eq_digits (n : Nat) :
    natStrData n = if n = 0 then ['0'] else (Nat.digits 10 n).reverse.map decDigit := by
  unfold natStrData
  by_cases h : n = 0
  · simp [h]
  · rw [if_neg h, if_neg h, natDigitsRev_eq n n le_rfl]

/-- Reading back a digit character gives the digit. -/
theorem digitVal_decDigit (d : Nat) (h : d < 10) : digitVal (decDigit d) = some d := by
  interval_cases d <;> decide

/-- A digit character is not a dot, a dash or a plus. -/
theorem decDigit_ne (d : Nat) (h : d < 10) :
    decDigit d ≠ '.' ∧ decDigit d ≠ '-' ∧ decDigit d ≠ '+' := by
  interval_cases d <;> refine ⟨by decide, by decide, by decide⟩

/-- Every character of a canonical numeral is a digit character. -/
theorem natStrData_chars (n : Nat) {c : Char} (hc : c ∈ natStrData n) :
    ∃ d, d < 10 ∧ c = decDigit d := by
  rw [natStrData_eq_digits] at hc
  by_cases h : n = 0
  · rw [if_pos h] at hc
    refine ⟨0, by norm_num, ?_⟩
    simpa using hc
  · rw [if_neg h] at hc
    obtain ⟨d, hd, rfl⟩ := List.mem_map.1 hc
    exact ⟨d, Nat.digits_lt_base (by norm_num) (List.mem_reverse.1 hd), rfl⟩

/-- A canonical numeral contains no dot. -/
theorem dot_not_mem_natStrData (n : Nat) : '.' ∉ natStrData n := by
  intro h
  obtain ⟨d, hd, hc⟩ := natStrData_chars n h
  exact (decDigit_ne d hd).1 hc.symm

/-- A canonical numeral is never empty. -/
theorem natStrData_ne_nil (n : Nat) : natStrData n ≠ [] := by
  rw [natStrData_eq_digits]
  by_cases h : n = 0
  · simp [h]
  · simp [h, Nat.digits_ne_nil_iff_ne_zero.2 h]

/-- The accumulating reader evaluated on mapped digit values. -/
theorem readDigitsAux_map (ds : List Nat) (h : ∀ d ∈ ds, d < 10) :
    ∀ acc, readDigitsAux acc (ds.map decDigit) =
      some (ds.foldl (fun a d => a * 10 + d) acc) := by
  induction ds with
  | nil => intro acc; rfl
  | cons d ds ih =>
    intro acc
    have hd : d < 10 := h d (List.mem_cons_self d ds)
    simp only [List.map_cons, readDigitsAux, digitVal_decDigit d hd, List.foldl_cons]
    exact ih (fun x hx => h x (List.mem_cons_of_mem d hx)) _

/-- Base-ten folding agrees with `Nat.ofDigits` of the reversed list. -/
theorem foldl_base10 (ds : List Nat) :
    ∀ acc, ds.foldl (fun a d => a * 10 + d) acc =
      acc * 10 ^ ds.length + Nat.ofDigits 10 ds.reverse := by
  induction ds with
  | nil => intro acc; simp [Nat.ofDigits]
  | cons d ds ih =>
    intro acc
    simp only [List.foldl_cons, ih, List.reverse_cons, Nat.ofDigits_append,
      List.length_reverse, List.length_cons]
    have h1 : Nat.ofDigits 10 [d] = d := by simp [Nat.ofDigits]
    rw [h1]
    ring

/-- `readDigits` on a non-empty list is the accumulating reader. -/
theorem readDigits_ne_nil {l : List Char} (h : l ≠ []) :
    readDigits l = readDigitsAux 0 l := by
  cases l with
  | nil => exact absurd rfl h
  | cons c cs => rfl

/-- Reading back a canonical numeral gives the number. -/
theorem readDigits_natStrData (n : Nat) : readDigits (natStrData n) = some n := by
  by_cases h : n = 0
  · subst h; decide
  · rw [readDigits_ne_nil (natStrData_ne_nil n), natStrData_eq_digits, if_neg h]
    rw [readDigitsAux_map ((Nat.digits 10 n).reverse)
      (fun d hd => Nat.digits_lt_base (by norm_num) (List.mem_reverse.1 hd)) 0]
    rw [foldl_base10]
    simp [Nat.ofDigits_digits]

/-- Canonical numerals are injective. -/
theorem natStr_inj {a b : Nat} (h : natStr a = natStr b) : a = b := by
  have hd : natStrData a = natStrData b := congrArg String.data h
  have := readDigits_natStrData a
  rw [hd, readDigits_natStrData b] at this
  exact (Option.some.inj this).symm

/-- Go `Atoi` reads back a canonical numeral. -/
theorem goAtoi_natStr (n : Nat) : goAtoi (natStr n) = some (n : Int) := by
  obtain ⟨c, cs, hcc⟩ := List.exists_cons_of_ne_nil (natStrData_ne_nil n)
  obtain ⟨d, hd, hc⟩ := natStrData_chars n (c := c) (by rw [hcc]; exact List.mem_cons_self _ _)
  have h1 : c ≠ '-' := hc ▸ (decDigit_ne d hd).2.1
  have h2 : c ≠ '+' := hc ▸ (decDigit_ne d hd).2.2
  have hdata : (natStr n).data = c :: cs := hcc
  unfold goAtoi
  rw [hdata]
  simp only [goAtoiData, if_neg h1, if_neg h2]
  rw [← hcc, readDigits_natStrData n]
  rfl

/-! ### Splitting toolkit (for claim C3) -/

/-- Splitting a list that avoids the separator yields the single
piece. -/
theorem splitOnChar_not_mem {c : Char} : ∀ {l : List Char}, c ∉ l → splitOnChar c l = [l]
  | [], _ => rfl
  | a :: as, h => by
    have hac : ¬ a = c := fun hh => h (hh ▸ List.mem_cons_self a as)
    have hrec := splitOnChar_not_mem (c := c) (l := as)
      (fun hh => h (List.mem_cons_of_mem a hh))
    simp [splitOnChar, hac, hrec]

/-- Splitting around one separator occurrence with a separator-free
front piece. -/
theorem splitOnChar_append {c : Char} {y : List Char} :
    ∀ {x : List Char}, c ∉ x → splitOnChar c (x ++ c :: y) = x :: splitOnChar c y
  | [], _ => by simp [splitOnChar]
  | a :: as, h => by
    have hac : ¬ a = c := fun hh => h (hh ▸ List.mem_cons_self a as)
    have hrec := splitOnChar_append (c := c) (y := y) (x := as)
      (fun hh => h (List.mem_cons_of_mem a hh))
    simp [splitOnChar, hac, hrec]

/-! ### Protocol compatibility (claim C3) -/

/-- The data of the protocol string `xM.N` after the `x` trim. -/
theorem protData (M N : Nat) :
    (goTrimPre ("x" ++ natStr M ++ "." ++ natStr N) "x").data =
      natStrData M ++ '.' :: natStrData N := by
  have hd : ("x" ++ natStr M ++ "." ++ natStr N).data =
      'x' :: (natStrData M ++ '.' :: natStrData N) := by
    simp [String.data_append, natStr]
  unfold goTrimPre
  rw [hd]
  simp [dropPre]

/-- Splitting the protocol string after the trim. -/
theorem protSplit (M N : Nat) :
    splitOnChar '.' (goTrimPre ("x" ++ natStr M ++ "." ++ natStr N) "x").data =
      [natStrData M, natStrData N] := by
  rw [protData M N, splitOnChar_append (dot_not_mem_natStrData M),
    splitOnChar_not_mem (dot_not_mem_natStrData N)]

/-- Claim C3: for every host protocol pair and every remote protocol
string of the shape `xMAJOR.MINOR` with numeric components,
`CheckProtocolVersion` accepts exactly when the remote major equals the
host major and the remote minor is at most the host minor; and a
non-numeric remote minor (one that differs from the host minor string)
surfaces as the propagated parse error. -/
theorem claim_C3 :
    (∀ HM Hm M N : Nat,
      checkProtocolVersion (natStr HM) (natStr Hm)
          ("x" ++ natStr M ++ "." ++ natStr N) = Except.ok ()
        ↔ (M = HM ∧ N ≤ Hm))
    ∧ (∀ HM Hm : Nat, ∀ m : String, goAtoi m = none → m ≠ natStr Hm → '.' ∉ m.data →
        checkProtocolVersion (natStr HM) (natStr Hm)
          ("x" ++ natStr HM ++ "." ++ m) = Except.error ProtErr.minorParse) := by
  constructor
  · intro HM Hm M N
    have hMstr : (⟨natStrData M⟩ : String) = natStr M := rfl
    have hNstr : (⟨natStrData N⟩ : String) = natStr N := rfl
    simp only [checkProtocolVersion, protSplit M N, hMstr, hNstr]
    by_cases hM : M = HM
    · subst hM
      rw [if_neg (fun h => h rfl : ¬ natStr M ≠ natStr M)]
      by_cases hN : N = Hm
      · subst hN
        rw [if_pos rfl]
        simp
      · have hNe : natStr N ≠ natStr Hm := fun h => hN (natStr_inj h)
        rw [if_neg hNe, goAtoi_natStr N, goAtoi_natStr Hm]
        by_cases hgt : (N : Int) > (Hm : Int)
        · simp only [if_pos hgt]
          simp
          omega
        · simp only [if_neg hgt]
          simp
          omega
    · have hNe : natStr M ≠ natStr HM := fun h => hM (natStr_inj h)
      rw [if_pos hNe]
      simp [hM]
  · intro HM Hm m hAtoi hNe hDot
    have hd : ("x" ++ natStr HM ++ "." ++ m).data =
        'x' :: (natStrData HM ++ '.' :: m.data) := by
      simp [String.data_append, natStr]
    have htrim : (goTrimPre ("x" ++ natStr HM ++ "." ++ m) "x").data =
        natStrData HM ++ '.' :: m.data := by
      unfold goTrimPre
      rw [hd]
      simp [dropPre]
    have hsplit : splitOnChar '.' (goTrimPre ("x" ++ natStr HM ++ "." ++ m) "x").data =
        [natStrData HM, m.data] := by
      rw [htrim, splitOnChar_append (dot_not_mem_natStrData HM),
        splitOnChar_not_mem hDot]
    have hMstr : (⟨natStrData HM⟩ : String) = natStr HM := rfl
    have hmstr : (⟨m.data⟩ : String) = m := by cases m; rfl
    simp only [checkProtocolVersion, hsplit, hMstr, hmstr]
    rw [if_neg (fun h => h rfl : ¬ natStr HM ≠ natStr HM), if_neg hNe, hAtoi]

/-- Witness for claim C3: host protocol 5.1 accepts remote `x5.0`
(equal majors, smaller minor), and a non-numeric remote minor (`x5.one`)
is a propagated parse error. -/
theorem claim_C3_witness :
    (checkProtocolVersion (natStr 5) (natStr 1) ("x" ++ natStr 5 ++ "." ++ natStr 0) =
        Except.ok () ↔ (5 = 5 ∧ 0 ≤ 1))
    ∧ checkProtocolVersion (natStr 5) (natStr 1) ("x" ++ natStr 5 ++ "." ++ "one") =
        Except.error ProtErr.minorParse :=
  ⟨claim_C3.1 5 1 5 0,
   claim_C3.2 5 1 "one" (by decide) (by decide) (by decide)⟩

/-! ### Filename round-trip (claim C4) -/

/-- Claim C4 is a code bug: formatting the canonical filename for the
plugin type `vault`, version `v1.2.3`, protocol `x5.0`, os `linux`,
arch `amd64` and extension `.zip` and parsing it back with
`ChecksumFileEntry.init` does not recover the version component.
Because `init` strips the prefix with the character-set `TrimLeft`, the
leading `v` of the version (a character of `packer-plugin-vault_`) is
eaten, leaving `binVersion = "1.2.3"` instead of the formatted
`"v1.2.3"`. -/
theorem claim_C4 :
    formatPluginFilename "packer-plugin-vault_" "v1.2.3" "x5.0" "linux" "amd64" ".zip" =
        "packer-plugin-vault_v1.2.3_x5.0_linux_amd64.zip"
    ∧ entryInitGo "packer-plugin-vault_" "packer-plugin-vault_v1.2.3_x5.0_linux_amd64.zip" =
        some { ext := ".zip", binVersion := "1.2.3", protVersion := "x5.0",
               goos := "linux", goarch := "amd64" }
    ∧ ("1.2.3" : String) ≠ "v1.2.3" := by
  refine ⟨rfl, ?_, by decide⟩
  rfl

/-! ### Discovery parse failures (claim C8) -/

/-- Claim C8 is a code bug: a glob match whose middle segment has no
underscore (here `packer-plugin-foo_v1_linux_amd64`, whose middle
collapses to `v1` after the prefix and suffix trims) makes
`ListInstallations` read `parts[1]` out of range — a Go panic (`none`
in the model) rather than a soft skip.  Parse failures that the source
does guard (an unparsable version, first conjunct below) are indeed
soft: the file is skipped and the scan continues to the remaining
matches. -/
theorem claim_C8 :
    listInstallationsGo demoPr discOpts
        [["plug/github.com/ex/foo/packer-plugin-foo_v1_linux_amd64"]] = none
    ∧ listInstallationsGo demoPr discOpts
        [["plug/github.com/ex/foo/packer-plugin-foo_vBAD_x5.0_linux_amd64",
          "plug/github.com/ex/foo/packer-plugin-foo_v1.2.3_x5.0_linux_amd64"]] =
        some [{ binaryPath := "plug/github.com/ex/foo/packer-plugin-foo_v1.2.3_x5.0_linux_amd64",
                version := "v1.2.3" }] := by
  exact ⟨rfl, rfl⟩

/-! ### Release version parse panic (claims C9, C10) -/

/-- Counterexample to claim C9: with a release index containing the
version string `not-a-version`, `InstallLatest` panics (the source calls
`panic(err)` on the parse error) instead of skipping the entry with a
trace diagnostic. -/
theorem claim_C9_cex :
    parseVersion "not-a-version" = none
    ∧ installLatestGo demoEnv c9Opts demoPr = (IResult.panicked, []) := by
  exact ⟨rfl, rfl⟩

/-- Any release list containing an unparsable version makes the phase A
collection panic. -/
theorem collectSat_panic {pr : GoRequirement} {r : Release} :
    ∀ {rs : List Release}, r ∈ rs → parseVersion r.version = none →
      collectSat pr rs = none := by
  intro rs
  induction rs with
  | nil => intro h; exact absurd h (List.not_mem_nil r)
  | cons a as ih =>
    intro hmem hparse
    rcases List.mem_cons.1 hmem with rfl | hmem
    · simp [collectSat, hparse]
    · unfold collectSat
      cases hp : parseVersion a.version with
      | none => rfl
      | some v => rw [ih hmem hparse]

/-- Claim C9 amended: in phase A of `InstallLatest`, a release-index
entry whose version string cannot be parsed is fatal to the whole call —
the source panics on it (it is not skipped with a trace diagnostic). -/
theorem claim_C9 (env : ExtEnv) (opts : InstallOptsGo) (pr : GoRequirement)
    (g : GoGetter) (gs : List GoGetter) (rs : List Release) (r : Release)
    (hgetters : opts.getters = g :: gs)
    (hrel : g.getReleases = some (some rs))
    (hne : rs ≠ [])
    (hmem : r ∈ rs)
    (hparse : parseVersion r.version = none) :
    installLatestGo env opts pr = (IResult.panicked, []) := by
  unfold installLatestGo
  rw [hgetters]
  unfold phaseA
  rw [hrel]
  simp only [if_neg hne]
  rw [collectSat_panic hmem hparse]

/-- Witness for the amended claim C9 at the concrete scenario of
`claim_C9_cex`. -/
theorem claim_C9_witness :
    installLatestGo demoEnv c9Opts demoPr = (IResult.panicked, []) :=
  claim_C9 demoEnv c9Opts demoPr c9Getter [] [{ version := "not-a-version" }]
    { version := "not-a-version" } rfl rfl (by decide)
    (List.mem_cons_self _ _) rfl

/-- Claim C10: with an empty `InFolders` list and at least one
satisfying version, `InstallLatest` panics (the index-out-of-range
selection of the last folder) instead of returning an error. -/
theorem claim_C10 (env : ExtEnv) (opts : InstallOptsGo) (pr : GoRequirement)
    (vs : List Ver)
    (hempty : opts.inFolders = [])
    (hphase : phaseA pr opts.getters = some vs)
    (hne : vs ≠ []) :
    installLatestGo env opts pr = (IResult.panicked, []) := by
  unfold installLatestGo
  rw [hphase]
  simp only [if_neg hne]
  obtain ⟨v, vrest, rfl⟩ := List.exists_cons_of_ne_nil hne
  unfold tryVersions attemptVersion
  rw [hempty]
  rfl

/-- Witness for claim C10: the demo getter serves version `1.2.3`, and
with no install folder the call panics. -/
theorem claim_C10_witness :
    installLatestGo demoEnv c10Opts demoPr = (IResult.panicked, []) :=
  claim_C10 demoEnv c10Opts demoPr [[1, 2, 3]] rfl rfl (by decide)

/-! ### Version ordering toolkit (for claim C5) -/

/-- Transitivity of the reflexive version order. -/
theorem vle_trans {a b c : Ver} (h1 : vle a b = true) (h2 : vle b c = true) :
    vle a c = true := by
  rcases Bool.or_eq_true_iff.mp h1 with h1' | h1'
  · rcases Bool.or_eq_true_iff.mp h2 with h2' | h2'
    · exact Bool.or_eq_true_iff.mpr (Or.inl (lexLt_trans h1' h2'))
    · have : b = c := by simpa using h2'
      subst this
      exact Bool.or_eq_true_iff.mpr (Or.inl h1')
  · have : a = b := by simpa using h1'
    subst this
    exact h2

/-- Totality of the reflexive version order. -/
theorem vle_total (a b : Ver) : vle a b = true ∨ vle b a = true := by
  cases h1 : lexLt a b with
  | true => exact Or.inl (Bool.or_eq_true_iff.mpr (Or.inl h1))
  | false =>
    cases h2 : lexLt b a with
    | true => exact Or.inr (Bool.or_eq_true_iff.mpr (Or.inl h2))
    | false =>
      have : a = b := lexLt_eq_of_not h1 h2
      subst this
      exact Or.inl (Bool.or_eq_true_iff.mpr (Or.inr (by simp)))

/-- A non-strict comparison between distinct versions is strict. -/
theorem vlt_of_vle_ne {a b : Ver} (h : vle a b = true) (hne : a ≠ b) : vlt a b = true := by
  rcases Bool.or_eq_true_iff.mp h with h' | h'
  · exact h'
  · exact absurd (by simpa using h') hne

/-- Membership after a descending insertion. -/
theorem mem_insertDesc {v x : Ver} : ∀ {l : List Ver}, x ∈ insertDesc v l → x ∈ l ∨ x = v := by
  intro l
  induction l with
  | nil =>
    intro h
    simp [insertDesc] at h
    exact Or.inr h
  | cons w ws ih =>
    intro h
    unfold insertDesc at h
    by_cases hle : vle w v = true
    · rw [if_pos hle] at h
      rcases List.mem_cons.1 h with rfl | h
      · exact Or.inr rfl
      · exact Or.inl h
    · rw [if_neg hle] at h
      rcases List.mem_cons.1 h with rfl | h
      · exact Or.inl (List.mem_cons_self _ _)
      · rcases ih h with h | h
        · exact Or.inl (List.mem_cons_of_mem _ h)
        · exact Or.inr h

/-- Descending insertion preserves the descending-sorted property. -/
theorem insertDesc_pairwise {v : Ver} {l : List Ver}
    (h : l.Pairwise fun a b => vle b a = true) :
    (insertDesc v l).Pairwise fun a b => vle b a = true := by
  induction l with
  | nil => simp [insertDesc]
  | cons w ws ih =>
    obtain ⟨hw, hws⟩ := List.pairwise_cons.mp h
    unfold insertDesc
    by_cases hle : vle w v = true
    · rw [if_pos hle]
      refine List.pairwise_cons.mpr ⟨?_, h⟩
      intro x hx
      rcases List.mem_cons.1 hx with rfl | hx
      · exact hle
      · exact vle_trans (hw x hx) hle
    · rw [if_neg hle]
      refine List.pairwise_cons.mpr ⟨?_, ih hws⟩
      intro x hx
      rcases mem_insertDesc hx with hx | heq
      · exact hw x hx
      · rcases vle_total w x with h' | h'
        · rw [heq] at h'
          exact absurd h' hle
        · exact h'

/-- The descending sort is descending-sorted. -/
theorem sortDesc_pairwise (l : List Ver) :
    (sortDesc l).Pairwise fun a b => vle b a = true := by
  unfold sortDesc
  induction l with
  | nil => simp
  | cons v vs ih => exact insertDesc_pairwise ih

/-- On a duplicate-free list, a descending-sorted order is strictly
descending. -/
theorem pairwise_strict {l : List Ver}
    (h1 : l.Pairwise fun a b => vle b a = true) (h2 : l.Nodup) :
    l.Pairwise fun a b => vlt b a = true := by
  induction l with
  | nil => exact List.Pairwise.nil
  | cons v vs ih =>
    obtain ⟨hv, hvs⟩ := List.pairwise_cons.mp h1
    obtain ⟨hnv, hnvs⟩ := List.pairwise_cons.mp h2
    refine List.pairwise_cons.mpr ⟨?_, ih hvs hnvs⟩
    intro x hx
    exact vlt_of_vle_ne (hv x hx) (fun h => (hnv x hx) h.symm)

/-- Whatever version list phase A returns is descending-sorted. -/
theorem phaseA_pairwise {pr : GoRequirement} :
    ∀ {gl : List GoGetter} {l : List Ver}, phaseA pr gl = some l →
      l.Pairwise fun a b => vle b a = true := by
  intro gl
  induction gl with
  | nil =>
    intro l h
    obtain rfl : ([] : List Ver) = l := Option.some.inj h
    exact List.Pairwise.nil
  | cons g gs ih =>
    intro l h
    unfold phaseA at h
    cases hr : g.getReleases with
    | none => simp only [hr] at h; exact ih h
    | some o =>
      cases o with
      | none => simp only [hr] at h; exact ih h
      | some rs =>
        simp only [hr] at h
        by_cases hrs : rs = []
        · rw [if_pos hrs] at h; exact ih h
        · rw [if_neg hrs] at h
          cases hc : collectSat pr rs with
          | none => simp only [hc] at h; simp at h
          | some vs =>
            simp only [hc] at h
            by_cases hvs : vs = []
            · rw [if_pos hvs] at h; exact ih h
            · rw [if_neg hvs] at h
              obtain rfl : sortDesc vs = l := Option.some.inj h
              exact sortDesc_pairwise vs

/-! ### Installer structure lemmas (for claims C1, C2, C5, C7) -/

/-- A successful zip loop pins down the installation record and
exhibits the getter whose fetched bytes verified against the located
checksum. -/
theorem zipLoop_installed {env : ExtEnv} {fc : FileChecksum} {outName : String} {v : Ver} :
    ∀ {gl : List GoGetter} {i : Installation},
      (zipLoop env fc outName v gl).1 = AttemptResult.installed i →
      i = { binaryPath := outName, version := "v" ++ vString v }
      ∧ ∃ g ∈ gl, ∃ b, g.getZip v = ZipGet.ok b
          ∧ fc.checksummer.checksum fc.expected b = true := by
  intro gl
  induction gl with
  | nil => intro i h; simp [zipLoop] at h
  | cons g gs ih =>
    intro i h
    unfold zipLoop at h
    cases htmp : env.tmpFileOk with
    | false => simp [htmp] at h
    | true =>
      simp only [htmp, not_true_eq_false, if_neg (by simp : ¬ False)] at h
      cases hz : g.getZip v with
      | transportErr =>
        rw [hz] at h
        obtain ⟨hi, g', hg', b, hb, hck⟩ := ih h
        exact ⟨hi, g', List.mem_cons_of_mem _ hg', b, hb, hck⟩
      | copyErr =>
        rw [hz] at h
        obtain ⟨hi, g', hg', b, hb, hck⟩ := ih h
        exact ⟨hi, g', List.mem_cons_of_mem _ hg', b, hb, hck⟩
      | seekErr =>
        rw [hz] at h
        obtain ⟨hi, g', hg', b, hb, hck⟩ := ih h
        exact ⟨hi, g', List.mem_cons_of_mem _ hg', b, hb, hck⟩
      | ok b =>
        rw [hz] at h
        cases hck : fc.checksummer.checksum fc.expected b with
        | false => simp only [hck, not_false_eq_true, if_pos trivial] at h; exact
            (fun ⟨hi, g', hg', b', hb', hck'⟩ =>
              ⟨hi, g', List.mem_cons_of_mem _ hg', b', hb', hck'⟩) (ih h)
        | true =>
          simp only [hck, not_true_eq_false, if_neg (by simp : ¬ False)] at h
          cases hpz : env.parseZipArchive b with
          | none => simp only [hpz] at h; simp at h
          | some entries =>
            simp only [hpz] at h
            cases hfe : findZipEntry (baseNameGo outName) entries with
            | none => simp only [hfe] at h; simp at h
            | some f =>
              simp only [hfe] at h
              cases hop : f.opened with
              | none => simp only [hop] at h; simp at h
              | some content =>
                simp only [hop] at h
                cases hoo : env.openOutputOk outName with
                | false => simp [hoo] at h
                | true =>
                  simp only [hoo, not_true_eq_false, if_neg (by simp : ¬ False)] at h
                  cases hco : env.copyToOutputOk outName with
                  | false => simp [hco] at h
                  | true =>
                    simp only [hco, not_true_eq_false, if_neg (by simp : ¬ False)] at h
                    refine ⟨?_, g, List.mem_cons_self _ _, b, hz, hck⟩
                    simp at h
                    exact h.symm

/-- A successful version attempt happened through a located checksum,
produced the canonical installation record for that version, and
verified the fetched archive bytes against the located checksum. -/
theorem attemptVersion_installed {env : ExtEnv} {opts : InstallOptsGo}
    {pr : GoRequirement} {v : Ver} {i : Installation}
    (h : (attemptVersion env opts pr v).1 = AttemptResult.installed i) :
    ∃ lastF fc, opts.inFolders.getLast? = some lastF
      ∧ locateChecksum pr opts.binOpts v opts.getters = LocateResult.found fc
      ∧ i = { binaryPath := outNameOf lastF pr fc, version := "v" ++ vString v }
      ∧ ∃ g ∈ opts.getters, ∃ b, g.getZip v = ZipGet.ok b
          ∧ fc.checksummer.checksum fc.expected b = true := by
  unfold attemptVersion at h
  cases hlf : opts.inFolders.getLast? with
  | none => simp only [hlf] at h; simp at h
  | some lastF =>
    simp only [hlf] at h
    cases hmk : env.mkdirOk (dirNameGo (outFolderOf lastF pr)) with
    | false => simp [hmk] at h
    | true =>
      simp only [hmk, not_true_eq_false, if_neg (by simp : ¬ False)] at h
      cases hlc : locateChecksum pr opts.binOpts v opts.getters with
      | fatalTransport => simp only [hlc] at h; simp at h
      | notFound => simp only [hlc] at h; simp at h
      | found fc =>
        simp only [hlc] at h
        cases hai : alreadyInstalled opts.binOpts.checksummers (outNameOf lastF pr fc) with
        | true => simp [hai] at h
        | false =>
          simp only [hai, Bool.false_eq_true, if_neg (by simp : ¬ False)] at h
          obtain ⟨hi, hg⟩ := zipLoop_installed h
          exact ⟨lastF, fc, rfl, rfl, hi, hg⟩

/-- A successful version loop decomposes the tried list: every version
before the winning one was exhausted, and the winning attempt produced
the installation. -/
theorem tryVersions_installed {env : ExtEnv} {opts : InstallOptsGo} {pr : GoRequirement} :
    ∀ {l : List Ver} {i : Installation},
      (tryVersions env opts pr l).1 = IResult.installed i →
      ∃ p v s, l = p ++ v :: s
        ∧ (∀ w ∈ p, (attemptVersion env opts pr w).1 = AttemptResult.exhausted)
        ∧ (attemptVersion env opts pr v).1 = AttemptResult.installed i := by
  intro l
  induction l with
  | nil => intro i h; simp [tryVersions] at h
  | cons v vs ih =>
    intro i h
    unfold tryVersions at h
    by_cases hex : (attemptVersion env opts pr v).1 = AttemptResult.exhausted
    · rw [if_pos hex] at h
      obtain ⟨p, v', s, hsplit, hall, hinst⟩ := ih h
      refine ⟨v :: p, v', s, by rw [hsplit]; rfl, ?_, hinst⟩
      intro w hw
      rcases List.mem_cons.1 hw with rfl | hw
      · exact hex
      · exact hall w hw
    · rw [if_neg hex] at h
      cases ha : (attemptVersion env opts pr v).1 with
      | panicked => rw [ha] at h; simp [liftAttempt] at h
      | fatal e => rw [ha] at h; simp [liftAttempt] at h
      | noop => rw [ha] at h; simp [liftAttempt] at h
      | exhausted => exact absurd ha hex
      | installed j =>
        rw [ha] at h
        simp only [liftAttempt] at h
        obtain rfl : j = i := by simpa using h
        exact ⟨[], v, vs, rfl, by simp, ha⟩

/-- When phase A finds versions, the call is the version loop over
them. -/
theorem installLatestGo_eq_tryVersions {env : ExtEnv} {opts : InstallOptsGo}
    {pr : GoRequirement} {sorted : List Ver}
    (hphase : phaseA pr opts.getters = some sorted) (hne : sorted ≠ []) :
    installLatestGo env opts pr = tryVersions env opts pr sorted := by
  unfold installLatestGo
  rw [hphase]
  simp only [if_neg hne]

/-! ### Version preference (claim C5) -/

/-- Claim C5: `InstallLatest` tries the satisfying versions of the
first successful getter in strictly descending order (given that they
are pairwise distinct), the call is exactly the version loop over that
sorted list, and a returned installation belongs to the first version
whose per-version attempt completed — every earlier version was
exhausted — with its `Version` field `"v"` plus that version's
string. -/
theorem claim_C5 (env : ExtEnv) (opts : InstallOptsGo) (pr : GoRequirement)
    (sorted : List Ver)
    (hphase : phaseA pr opts.getters = some sorted)
    (hne : sorted ≠ [])
    (hnd : sorted.Nodup) :
    sorted.Pairwise (fun a b => vlt b a = true)
    ∧ installLatestGo env opts pr = tryVersions env opts pr sorted
    ∧ ∀ i : Installation, (installLatestGo env opts pr).1 = IResult.installed i →
        ∃ p v s, sorted = p ++ v :: s
          ∧ (∀ w ∈ p, (attemptVersion env opts pr w).1 = AttemptResult.exhausted)
          ∧ (attemptVersion env opts pr v).1 = AttemptResult.installed i
          ∧ i.version = "v" ++ vString v := by
  refine ⟨pairwise_strict (phaseA_pairwise hphase) hnd,
    installLatestGo_eq_tryVersions hphase hne, ?_⟩
  intro i h
  rw [installLatestGo_eq_tryVersions hphase hne] at h
  obtain ⟨p, v, srest, hsplit, hall, hinst⟩ := tryVersions_installed h
  obtain ⟨lastF, fc, _, _, hi, _⟩ := attemptVersion_installed hinst
  exact ⟨p, v, srest, hsplit, hall, hinst, by rw [hi]⟩

/-- Witness for claim C5: the two-release getter yields the sorted
candidate list `[2.0.0, 1.2.3]`, strictly descending, and the returned
installation is decided by the version loop over it. -/
theorem claim_C5_witness :
    ([[2, 0, 0], [1, 2, 3]] : List Ver).Pairwise (fun a b => vlt b a = true)
    ∧ installLatestGo c5Env c5Opts demoPr =
        tryVersions c5Env c5Opts demoPr [[2, 0, 0], [1, 2, 3]]
    ∧ ∀ i : Installation, (installLatestGo c5Env c5Opts demoPr).1 = IResult.installed i →
        ∃ p v s, ([[2, 0, 0], [1, 2, 3]] : List Ver) = p ++ v :: s
          ∧ (∀ w ∈ p, (attemptVersion c5Env c5Opts demoPr w).1 = AttemptResult.exhausted)
          ∧ (attemptVersion c5Env c5Opts demoPr v).1 = AttemptResult.installed i
          ∧ i.version = "v" ++ vString v :=
  claim_C5 c5Env c5Opts demoPr [[2, 0, 0], [1, 2, 3]] rfl (by decide) (by decide)

/-! ### The checksum gate (claim C1) -/

/-- A file that the discovery loop accepts was verified: its path is
recorded in the installation and some checksummer vouched for it. -/
theorem processFile_sound {pr : GoRequirement} {opts : BinOptsGo} {path : String}
    {inst : Installation}
    (h : processFile pr opts path = some (some inst)) :
    inst.binaryPath = path ∧ discoveryChecksumOk opts.checksummers path = true := by
  unfold processFile at h
  by_cases hf : baseNameGo path = "."
  · rw [if_pos hf] at h; simp at h
  · rw [if_neg hf] at h
    cases hsp : splitN2 '_'
        (goTrimSuf (goTrimPre (baseNameGo path) (fnamePref pr)) (fnameSuf opts)).data with
    | nil => simp only [hsp] at h; simp at h
    | cons p0 rest =>
      cases rest with
      | nil => simp only [hsp] at h; simp at h
      | cons p1 rest2 =>
        simp only [hsp] at h
        cases hpv : parseVersion ⟨p0⟩ with
        | none => simp only [hpv] at h; simp at h
        | some pv =>
          simp only [hpv] at h
          cases hcs : pr.constraintsCheck pv with
          | false => simp [hcs] at h
          | true =>
            simp only [hcs, not_true_eq_false, if_neg (by simp : ¬ False)] at h
            cases hproto : checkProtocolVersion opts.apiMajor opts.apiMinor ⟨p1⟩ with
            | error e => simp only [hproto] at h; simp at h
            | ok u =>
              simp only [hproto] at h
              cases hck : discoveryChecksumOk opts.checksummers path with
              | false => simp [hck] at h
              | true =>
                simp only [hck, if_pos trivial] at h
                refine ⟨?_, rfl⟩
                have hinst : ({ binaryPath := path, version := ⟨p0⟩ } : Installation) = inst := by
                  simpa using h
                rw [← hinst]

/-- Unpacking the discovery checksum gate: some listed checksummer
produced a sidecar digest and verified the file against it. -/
theorem discoveryChecksumOk_sound {cks : List GoChecksummer} {path : String}
    (h : discoveryChecksumOk cks path = true) :
    ∃ c ∈ cks, ∃ cs, c.getChecksumOfFile path = some cs
      ∧ c.checksumFile cs path = true := by
  unfold discoveryChecksumOk at h
  obtain ⟨c, hc, hp⟩ := List.any_eq_true.mp h
  refine ⟨c, hc, ?_⟩
  cases hg : c.getChecksumOfFile path with
  | none => rw [hg] at hp; simp at hp
  | some cs => rw [hg] at hp; exact ⟨cs, rfl, hp⟩

/-- The scan fold only ever adds verified installations. -/
theorem scanFiles_sound {pr : GoRequirement} {opts : BinOptsGo} :
    ∀ {ps : List String} {acc l : List Installation},
      (∀ inst ∈ acc, ∃ c ∈ opts.checksummers, ∃ cs,
        c.getChecksumOfFile inst.binaryPath = some cs
        ∧ c.checksumFile cs inst.binaryPath = true) →
      scanFiles pr opts ps acc = some l →
      ∀ inst ∈ l, ∃ c ∈ opts.checksummers, ∃ cs,
        c.getChecksumOfFile inst.binaryPath = some cs
        ∧ c.checksumFile cs inst.binaryPath = true := by
  intro ps
  induction ps with
  | nil =>
    intro acc l hacc h
    obtain rfl : acc = l := Option.some.inj h
    exact hacc
  | cons p ps ih =>
    intro acc l hacc h
    unfold scanFiles at h
    cases hpf : processFile pr opts p with
    | none => simp only [hpf] at h; simp at h
    | some o =>
      cases o with
      | none => simp only [hpf] at h; exact ih hacc h
      | some inst =>
        simp only [hpf] at h
        refine ih ?_ h
        intro x hx
        rcases mem_insertSortedUniq hx with hx | rfl
        · exact hacc x hx
        · obtain ⟨hbp, hck⟩ := processFile_sound hpf
          obtain ⟨c, hc, cs, hg, hcf⟩ := discoveryChecksumOk_sound hck
          exact ⟨c, hc, cs, by rw [hbp]; exact hg, by rw [hbp]; exact hcf⟩

/-- Claim C1: discovery's checksum gate — every installation that
`ListInstallations` returns was verified by some caller-supplied
checksummer (a sidecar digest was found for its path and the file
verified against it), so an unverifiable binary is excluded; and
`InstallLatest` never returns an installation without a located
`FileChecksum` against which the fetched archive bytes verified. -/
theorem claim_C1 :
    (∀ (pr : GoRequirement) (opts : BinOptsGo) (matchesPerFolder : List (List String))
        (l : List Installation),
      listInstallationsGo pr opts matchesPerFolder = some l →
      ∀ inst ∈ l, ∃ c ∈ opts.checksummers, ∃ cs,
        c.getChecksumOfFile inst.binaryPath = some cs
        ∧ c.checksumFile cs inst.binaryPath = true)
    ∧ (∀ (env : ExtEnv) (opts : InstallOptsGo) (pr : GoRequirement) (i : Installation),
      (installLatestGo env opts pr).1 = IResult.installed i →
      ∃ v fc, locateChecksum pr opts.binOpts v opts.getters = LocateResult.found fc
        ∧ i.version = "v" ++ vString v
        ∧ ∃ g ∈ opts.getters, ∃ b, g.getZip v = ZipGet.ok b
            ∧ fc.checksummer.checksum fc.expected b = true) := by
  constructor
  · intro pr opts ms l h inst hi
    exact scanFiles_sound (by simp) h inst hi
  · intro env opts pr i h
    unfold installLatestGo at h
    cases hph : phaseA pr opts.getters with
    | none => simp only [hph] at h; simp at h
    | some vs =>
      simp only [hph] at h
      by_cases hvs : vs = []
      · rw [if_pos hvs] at h; simp at h
      · rw [if_neg hvs] at h
        obtain ⟨p, v, srest, _, _, hinst⟩ := tryVersions_installed h
        obtain ⟨lastF, fc, _, hlc, hi2, hg⟩ := attemptVersion_installed hinst
        exact ⟨v, fc, hlc, by rw [hi2], hg⟩

/-- Witness for claim C1: the discovered demo binary is vouched for by
the discovery checksummer, and the demo install run has a located and
verified file checksum behind its returned installation. -/
theorem claim_C1_witness :
    (∀ inst ∈
        [(⟨"plug/github.com/ex/foo/packer-plugin-foo_v1.2.3_x5.0_linux_amd64",
           "v1.2.3"⟩ : Installation)],
      ∃ c ∈ discOpts.checksummers, ∃ cs,
        c.getChecksumOfFile inst.binaryPath = some cs
        ∧ c.checksumFile cs inst.binaryPath = true)
    ∧ ∃ v fc, locateChecksum demoPr demoOpts.binOpts v demoOpts.getters =
          LocateResult.found fc
        ∧ demoInst.version = "v" ++ vString v
        ∧ ∃ g ∈ demoOpts.getters, ∃ b, g.getZip v = ZipGet.ok b
            ∧ fc.checksummer.checksum fc.expected b = true :=
  ⟨claim_C1.1 demoPr discOpts
      [["plug/github.com/ex/foo/packer-plugin-foo_v1.2.3_x5.0_linux_amd64"]] _ rfl,
   claim_C1.2 demoEnv demoOpts demoPr demoInst rfl⟩

/-! ### Transport failures in a version attempt (claim C2) -/

/-- Counterexample to claim C2: the first getter's checksum-manifest
fetch fails at the transport level; the claim says the loop advances to
the next pair, but the call aborts with a fatal error — even though the
second getter alone would have completed the installation (second
conjunct). -/
theorem claim_C2_cex :
    installLatestGo demoEnv c2Opts demoPr =
        (IResult.fatal IErr.checksumTransport, [Effect.mkdirAll "plug/github.com/ex"])
    ∧ (installLatestGo demoEnv demoOpts demoPr).1 = IResult.installed demoInst := by
  exact ⟨rfl, rfl⟩

/-- Claim C2 amended: within a version attempt, a getter's failure to
fetch or stream the archive (transport, copy or seek) advances the zip
loop to the next getter; but a transport failure of a checksum-manifest
fetch at the reached (getter, checksummer) pair is fatal to the whole
call — it does not advance to the next pair (a manifest that merely
fails to parse or yields no usable entry does advance to the next
checksummer, and a getter found without a checksum advances to the next
getter, so any reached pair can surface the fatality); a missing
checksum across all pairs and a missing expected archive entry are
fatal as well, and a fatal attempt ends the version loop. -/
theorem claim_C2 :
    (∀ (env : ExtEnv) (fc : FileChecksum) (outName : String) (v : Ver)
        (g : GoGetter) (gs : List GoGetter),
      env.tmpFileOk = true →
      (g.getZip v = ZipGet.transportErr ∨ g.getZip v = ZipGet.copyErr ∨
        g.getZip v = ZipGet.seekErr) →
      (zipLoop env fc outName v (g :: gs)).1 = (zipLoop env fc outName v gs).1)
    ∧ (∀ (pr : GoRequirement) (opts : BinOptsGo) (v : Ver) (g : GoGetter)
        (c : GoChecksummer) (cks : List GoChecksummer),
      g.getChecksum c.ctype v = none →
      locateInner pr opts v g (c :: cks) = LocateResult.fatalTransport)
    ∧ (∀ (pr : GoRequirement) (opts : BinOptsGo) (v : Ver) (g : GoGetter)
        (c : GoChecksummer) (cks : List GoChecksummer),
      (g.getChecksum c.ctype v = some none ∨
        (∃ entries, g.getChecksum c.ctype v = some (some entries)
          ∧ scanEntries pr opts v c entries = none)) →
      locateInner pr opts v g (c :: cks) = locateInner pr opts v g cks)
    ∧ (∀ (pr : GoRequirement) (opts : BinOptsGo) (v : Ver) (g : GoGetter)
        (gs : List GoGetter),
      (locateInner pr opts v g opts.checksummers = LocateResult.fatalTransport →
        locateChecksum pr opts v (g :: gs) = LocateResult.fatalTransport)
      ∧ (locateInner pr opts v g opts.checksummers = LocateResult.notFound →
        locateChecksum pr opts v (g :: gs) = locateChecksum pr opts v gs))
    ∧ (∀ (env : ExtEnv) (opts : InstallOptsGo) (pr : GoRequirement) (v : Ver)
        (lastF : String),
      opts.inFolders.getLast? = some lastF →
      env.mkdirOk (dirNameGo (outFolderOf lastF pr)) = true →
      (locateChecksum pr opts.binOpts v opts.getters = LocateResult.fatalTransport →
        (attemptVersion env opts pr v).1 = AttemptResult.fatal IErr.checksumTransport)
      ∧ (locateChecksum pr opts.binOpts v opts.getters = LocateResult.notFound →
        (attemptVersion env opts pr v).1 = AttemptResult.fatal IErr.noChecksumFound))
    ∧ (∀ (env : ExtEnv) (fc : FileChecksum) (outName : String) (v : Ver)
        (g : GoGetter) (gs : List GoGetter) (b : List Nat) (entries : List ZipEntry),
      env.tmpFileOk = true →
      g.getZip v = ZipGet.ok b →
      fc.checksummer.checksum fc.expected b = true →
      env.parseZipArchive b = some entries →
      findZipEntry (baseNameGo outName) entries = none →
      (zipLoop env fc outName v (g :: gs)).1 = AttemptResult.fatal IErr.missingEntry)
    ∧ (∀ (env : ExtEnv) (opts : InstallOptsGo) (pr : GoRequirement) (v : Ver)
        (rest : List Ver) (e : IErr),
      (attemptVersion env opts pr v).1 = AttemptResult.fatal e →
      (tryVersions env opts pr (v :: rest)).1 = IResult.fatal e) := by
  refine ⟨?_, ?_, ?_, ?_, ?_, ?_, ?_⟩
  · intro env fc outName v g gs htmp hz
    conv_lhs => unfold zipLoop
    rcases hz with hz | hz | hz <;> simp [htmp, hz]
  · intro pr opts v g c cks hget
    unfold locateInner
    simp only [hget]
  · intro pr opts v g c cks hsoft
    conv_lhs => unfold locateInner
    rcases hsoft with hsoft | ⟨entries, hget, hscan⟩
    · simp only [hsoft]
    · simp only [hget, hscan]
  · intro pr opts v g gs
    constructor
    · intro h
      conv_lhs => unfold locateChecksum
      simp only [h]
    · intro h
      conv_lhs => unfold locateChecksum
      simp only [h]
  · intro env opts pr v lastF hlf hmk
    constructor
    · intro hloc
      unfold attemptVersion
      rw [hlf]
      simp [hmk, hloc]
    · intro hloc
      unfold attemptVersion
      rw [hlf]
      simp [hmk, hloc]
  · intro env fc outName v g gs b entries htmp hz hck hpz hfe
    unfold zipLoop
    simp [htmp, hz, hck, hpz, hfe]
  · intro env opts pr v rest e h
    unfold tryVersions
    simp [h, liftAttempt]

/-- Witness for the amended claim C2, exercising each conjunct on
concrete collaborators: a zip transport failure leaves the loop result
that of the remaining getters; the demo scenario's broken first getter
makes the reached pair's manifest fetch fatal, both at the inner loop
and lifted to the attempt; an unparsable manifest advances to the next
checksummer and a checksum-free getter to the next getter; a manifest
missing from every pair is the fatal "no checksum" error; an archive
without the expected entry is the fatal "missing entry" error; and the
fatal attempt ends the version loop. -/
theorem claim_C2_witness :
    ((zipLoop demoEnv demoFc demoInst.binaryPath [1, 2, 3]
        (c2ZipBadGetter :: [demoGetter])).1 =
      (zipLoop demoEnv demoFc demoInst.binaryPath [1, 2, 3] [demoGetter]).1)
    ∧ locateInner demoPr demoBinOpts [1, 2, 3] c2BadGetter (demoCk :: []) =
        LocateResult.fatalTransport
    ∧ locateInner demoPr demoBinOpts [1, 2, 3] c2NoParseGetter (demoCk :: []) =
        locateInner demoPr demoBinOpts [1, 2, 3] c2NoParseGetter []
    ∧ locateChecksum demoPr demoBinOpts [1, 2, 3] (c2ParseBadGetter :: [c2BadGetter]) =
        locateChecksum demoPr demoBinOpts [1, 2, 3] [c2BadGetter]
    ∧ (attemptVersion demoEnv c2Opts demoPr [1, 2, 3]).1 =
        AttemptResult.fatal IErr.checksumTransport
    ∧ (attemptVersion demoEnv c2NfOpts demoPr [1, 2, 3]).1 =
        AttemptResult.fatal IErr.noChecksumFound
    ∧ (zipLoop c2MissEnv demoFc demoInst.binaryPath [1, 2, 3]
        (demoGetter :: [demoGetter])).1 = AttemptResult.fatal IErr.missingEntry
    ∧ (tryVersions demoEnv c2Opts demoPr ([1, 2, 3] :: [])).1 =
        IResult.fatal IErr.checksumTransport :=
  ⟨claim_C2.1 demoEnv demoFc demoInst.binaryPath [1, 2, 3] c2ZipBadGetter [demoGetter]
      rfl (Or.inl rfl),
   claim_C2.2.1 demoPr demoBinOpts [1, 2, 3] c2BadGetter demoCk [] rfl,
   claim_C2.2.2.1 demoPr demoBinOpts [1, 2, 3] c2NoParseGetter demoCk []
      (Or.inl rfl),
   (claim_C2.2.2.2.1 demoPr demoBinOpts [1, 2, 3] c2ParseBadGetter [c2BadGetter]).2 rfl,
   (claim_C2.2.2.2.2.1 demoEnv c2Opts demoPr [1, 2, 3] "plug" rfl rfl).1 rfl,
   (claim_C2.2.2.2.2.1 demoEnv c2NfOpts demoPr [1, 2, 3] "plug" rfl rfl).2 rfl,
   claim_C2.2.2.2.2.2.1 c2MissEnv demoFc demoInst.binaryPath [1, 2, 3] demoGetter
      [demoGetter] [1, 2, 3] [{ name := "other", opened := some [1, 2, 3] }]
      rfl rfl rfl rfl rfl,
   claim_C2.2.2.2.2.2.2 demoEnv c2Opts demoPr [1, 2, 3] [] IErr.checksumTransport rfl⟩

/-! ### Idempotence short-circuit (claim C7) -/

/-- Claim C7: when a checksummer finds a matching non-empty sidecar for
the binary already at the output name, the version attempt (and with it
the whole version loop entered at that version) returns the `(nil, nil)`
no-op, and the only filesystem action of the attempt is the directory
creation — no archive fetch, no binary write and no sidecar write; a
second identical install with unchanged upstream state is therefore a
no-op. -/
theorem claim_C7 (env : ExtEnv) (opts : InstallOptsGo) (pr : GoRequirement)
    (v : Ver) (lastF : String) (fc : FileChecksum) (rest : List Ver)
    (hlf : opts.inFolders.getLast? = some lastF)
    (hmk : env.mkdirOk (dirNameGo (outFolderOf lastF pr)) = true)
    (hlc : locateChecksum pr opts.binOpts v opts.getters = LocateResult.found fc)
    (hai : alreadyInstalled opts.binOpts.checksummers (outNameOf lastF pr fc) = true) :
    attemptVersion env opts pr v =
      (AttemptResult.noop, [Effect.mkdirAll (dirNameGo (outFolderOf lastF pr))])
    ∧ tryVersions env opts pr (v :: rest) =
      (IResult.noop, [Effect.mkdirAll (dirNameGo (outFolderOf lastF pr))]) := by
  have hat : attemptVersion env opts pr v =
      (AttemptResult.noop, [Effect.mkdirAll (dirNameGo (outFolderOf lastF pr))]) := by
    unfold attemptVersion
    rw [hlf]
    simp [hmk, hlc, hai]
  refine ⟨hat, ?_⟩
  unfold tryVersions
  rw [hat]
  simp [liftAttempt]

/-- Witness for claim C7: in the already-installed demo scenario the
attempt for version `1.2.3` and the loop entered at it are both the
no-op with only the directory-creation effect. -/
theorem claim_C7_witness :
    attemptVersion demoEnv c7Opts demoPr [1, 2, 3] =
      (AttemptResult.noop, [Effect.mkdirAll (dirNameGo (outFolderOf "plug" demoPr))])
    ∧ tryVersions demoEnv c7Opts demoPr ([1, 2, 3] :: []) =
      (IResult.noop, [Effect.mkdirAll (dirNameGo (outFolderOf "plug" demoPr))]) :=
  claim_C7 demoEnv c7Opts demoPr [1, 2, 3] "plug" c7Fc [] rfl rfl rfl rfl
